import Mathlib

/-!
A shallow embedding of `src/utiltities.js` of the Javascript-Barcode-Reader
repository, together with proofs about its three core numeric stages
(binarization, run-length line extraction, consensus merging) and the
`isUrl` helper.

Modelling conventions:
* A JS pixel array `data` is modelled as a function `Nat → ℚ` (the values
  stored at each index) together with its explicit length `len`; JS numbers
  are modelled as exact rationals `ℚ` (all arithmetic performed by the
  source on the modelled paths is exact).
* In-place mutation of `data` is modelled by explicit state passing: each
  function returns the final contents of the array.
* `for (k = 0; k < n; k += 1)` loops are modelled with `Nat.fold`, which
  applies the body at `0, 1, …, n-1` in increasing order.
* JS `Array.prototype.sort` is guaranteed stable; `sortByLenDesc` is the
  stable descending-length sort realised by the comparator
  `(a, b) => b.length - a.length`.
* Clamping `x1 = i - s2; if (x1 < 0) x1 = 0` is modelled by truncated `Nat`
  subtraction, whose value is exactly the clamped result.
-/

namespace Barcode

/-- Functional update of a modelled JS numeric array at one index. -/
def upd (f : Nat → ℚ) (i : Nat) (v : ℚ) : Nat → ℚ := fun k => if k = i then v else f k

/-- `data[index] = v; data[index+1] = v; data[index+2] = v` -/
def write3 (d : Nat → ℚ) (index : Nat) (v : ℚ) : Nat → ℚ :=
  upd (upd (upd d index v) (index + 1) v) (index + 2) v

/-- The mutable state of `applyAdaptiveThreshold`: the pixel array and the
`integralImage` array (the latter starts as `new Array(width*height).fill(0)`). -/
structure AState where
  dat : Nat → ℚ
  itg : Nat → ℚ

/-- Body of the inner (row) loop of the first pass of `applyAdaptiveThreshold`
(utiltities.js lines 131-148): greyscale the pixel, accumulate the running
column sum, and store the integral-image entry.  The `ℚ` component of the
state is the running `sum` of the current column. -/
def p1RowBody (w ch i : Nat) (j : Nat) (st : AState × ℚ) : AState × ℚ :=
  let pureIndex := j * w + i
  let index := pureIndex * ch
  let v := (st.1.dat index + st.1.dat (index + 1) + st.1.dat (index + 2)) / 3
  let dat := write3 st.1.dat index v
  let sum := st.2 + v
  let itg :=
    if i = 0 then upd st.1.itg pureIndex sum
    else upd st.1.itg pureIndex (st.1.itg (pureIndex - 1) + sum)
  (⟨dat, itg⟩, sum)

/-- One iteration of the outer (column) loop of the first pass: run the row
loop down column `i` with `sum` re-initialised to `0`. -/
def p1ColBody (w h ch : Nat) (i : Nat) (st : AState) : AState :=
  (Nat.fold (p1RowBody w ch i) h (st, 0)).1

/-- First pass of `applyAdaptiveThreshold` (utiltities.js lines 128-149):
greyscale conversion plus integral-image construction. -/
def adaptiveFirstPass (data : Nat → ℚ) (w h ch : Nat) : AState :=
  Nat.fold (p1ColBody w h ch) w ⟨data, fun _ => 0⟩

/-- Body of the second pass of `applyAdaptiveThreshold` (utiltities.js lines
152-185) for pixel `(i, j)`: local-window mean thresholding via the
integral image.  `t` is the threshold percentage and `s2` the half window
size computed once in the source. -/
def p2Body (w h ch : Nat) (t : ℚ) (s2 : Nat) (i j : Nat) (st : AState) : AState :=
  let pureIndex := j * w + i
  let index := pureIndex * ch
  let x1 := i - s2
  let x2 := if w ≤ i + s2 then w - 1 else i + s2
  let y1 := j - s2
  let y2 := if h ≤ j + s2 then h - 1 else j + s2
  let count := (x2 - x1) * (y2 - y1)
  let sum := st.itg (y2 * w + x2) - st.itg (y1 * w + x2) -
    st.itg (y2 * w + x1) + st.itg (y1 * w + x1)
  let v : ℚ := if st.dat index * (count : ℚ) < sum * (1 - t) then 0 else 255
  ⟨write3 st.dat index v, st.itg⟩

/-- One iteration of the outer (column) loop of the second pass. -/
def p2ColBody (w h ch : Nat) (t : ℚ) (s2 : Nat) (i : Nat) (st : AState) : AState :=
  Nat.fold (fun j => p2Body w h ch t s2 i j) h st

/-- Second pass of `applyAdaptiveThreshold`. -/
def adaptiveSecondPass (w h ch : Nat) (t : ℚ) (s2 : Nat) (st : AState) : AState :=
  Nat.fold (fun i => p2ColBody w h ch t s2 i) w st

/-- `applyAdaptiveThreshold(data, width, height)` (utiltities.js lines
121-188).  `len` is `data.length`; the returned function is the final
contents of the (in-place mutated and returned) `data` array. -/
def applyAdaptiveThreshold (data : Nat → ℚ) (len width height : Nat) : Nat → ℚ :=
  let channels := len / (width * height)
  let t : ℚ := 0.15
  let s := width / 4
  let s2 := (s + 1) / 2
  (adaptiveSecondPass width height channels t s2
    (adaptiveFirstPass data width height channels)).dat

/-- Body of the loop of `applySimpleThreshold` (utiltities.js lines 200-211)
for the `k`-th pixel (the source iterates `i = k * channels`). -/
def simpleBody (ch : Nat) (k : Nat) (d : Nat → ℚ) : Nat → ℚ :=
  let i := k * ch
  let r := d i
  let g := d (i + 1)
  let b := d (i + 2)
  let v := (r + g + b) / 3
  let v2 : ℚ := if v > 127 then 255 else 0
  write3 d i v2

/-- `applySimpleThreshold(data, width, height)` (utiltities.js lines
197-214).  The source loop `for (i = 0; i < data.length; i += channels)`
performs `⌈len / channels⌉` iterations at `i = k * channels`. -/
def applySimpleThreshold (data : Nat → ℚ) (len width height : Nat) : Nat → ℚ :=
  let channels := len / (width * height)
  Nat.fold (simpleBody channels) ((len + channels - 1) / channels) data

/-- Inner (row) loop of `getLines` for one column (utiltities.js lines
235-239): count pixels whose first channel is `255`; the second component
is the loop variable `value` after the loop (`none` models the JS
`undefined` when `height = 0`). -/
def colScan (data : Nat → ℚ) (w h ch : Nat) (col : Nat) : Nat × Option ℚ :=
  Nat.fold (fun row st =>
    let value := data ((row * w + col) * ch)
    ((if value = 255 then st.1 + 1 else st.1), some value)) h (0, none)

/-- One iteration of the first (column) loop of `getLines` (utiltities.js
lines 231-247).  The state is `(padding.left, padding.right, bmp)`. -/
def scanStep (data : Nat → ℚ) (w h ch : Nat) (col : Nat) (st : Bool × Bool × List Bool) :
    Bool × Bool × List Bool :=
  let mv := colScan data w h ch col
  let pl := if mv.2 = some 0 ∧ col = 0 then false else st.1
  let pr := if mv.2 = some 0 ∧ col = w - 1 then false else st.2.1
  (pl, pr, st.2.2 ++ [decide (mv.1 > 1)])

/-- One iteration of the run-length loop of `getLines` (utiltities.js lines
252-264).  The state is `(lines, count, curr)`; `curr : Option Bool`
models that the JS `curr` is `undefined` when `width = 0`. -/
def rleStep (w : Nat) (bmp : List Bool) (col : Nat) (st : List Nat × Nat × Option Bool) :
    List Nat × Nat × Option Bool :=
  if some (bmp.getD col false) = st.2.2 then
    let count := st.2.1 + 1
    ((if col = w - 1 then st.1 ++ [count] else st.1), count, st.2.2)
  else
    (st.1 ++ [st.2.1], 1, some (bmp.getD col false))

/-- `getLines(data, width, height)` (utiltities.js lines 223-271). -/
def getLines (data : Nat → ℚ) (len width height : Nat) : List Nat :=
  let channels := len / (width * height)
  let scan := Nat.fold (scanStep data width height channels) width (true, true, [])
  let bmp := scan.2.2
  let rle := Nat.fold (rleStep width bmp) width ([], 1, bmp.head?)
  let lines := rle.1
  let lines := if scan.1 then lines.drop 1 else lines
  if scan.2.1 then lines.dropLast else lines

/-- Stable insertion of a string into a descending-length sorted list:
`s` goes after every element of length `≥ s.length`. -/
def insertByLen (sorted : List String) (s : String) : List String :=
  match sorted with
  | [] => [s]
  | t :: ts => if s.length ≤ t.length then t :: insertByLen ts s else s :: t :: ts

/-- The stable descending-length sort performed in place by
`results.sort((a, b) => b.length - a.length)` (utiltities.js lines 277-280). -/
def sortByLenDesc (l : List String) : List String := l.foldl insertByLen []

/-- Read `finalResult[i]`: `none` models `undefined` (hole or out of range). -/
def cellAt (fin : List (Option Char)) (i : Nat) : Option Char := fin.getD i none

/-- JS array index assignment `finalResult[i] = c`, padding with holes when
`i` is beyond the current length. -/
def arraySet (fin : List (Option Char)) (i : Nat) (c : Char) : List (Option Char) :=
  match fin, i with
  | [], 0 => [some c]
  | [], n + 1 => none :: arraySet [] n c
  | _ :: xs, 0 => some c :: xs
  | x :: xs, n + 1 => x :: arraySet xs n c

/-- The `result.split('').forEach((char, index) => …)` loop of
`combineAllPossible` (utiltities.js lines 289-293), started at index `i`:
write `char` (with `'?'` passed through as `'?'`) into every position that
is currently empty or currently `'?'`. -/
def fillResult (fin : List (Option Char)) (i : Nat) : List Char → List (Option Char)
  | [] => fin
  | c :: cs =>
      fillResult
        (if cellAt fin i = none ∨ cellAt fin i = some '?'
         then arraySet fin i (if c = '?' then '?' else c) else fin)
        (i + 1) cs

/-- One iteration of the `forEach` over the sorted candidates
(utiltities.js lines 281-295).  The state is `(finalResult, maxLength)`. -/
def mergeStep (st : List (Option Char) × Nat) (result : String) : List (Option Char) × Nat :=
  if st.2 = 0 ∨ result.length = st.2 then
    (fillResult st.1 0 result.data, result.length)
  else st

/-- `finalResult.join('')`: holes contribute the empty string. -/
def joinCells (fin : List (Option Char)) : String := String.mk (fin.filterMap id)

/-- `combineAllPossible(results)` (utiltities.js lines 273-298), with the
side effect on the caller's array made explicit: the first component is
the returned string, the second the final contents of `results` (which the
source sorts in place and never modifies afterwards). -/
def combineAllPossibleRun (results : List String) : String × List String :=
  let sorted := sortByLenDesc results
  let fin := (sorted.foldl mergeStep ([], 0)).1
  (joinCells fin, sorted)

/-- The return value of `combineAllPossible(results)`. -/
def combineAllPossible (results : List String) : String := (combineAllPossibleRun results).1

/-- A JS value as far as `isUrl` needs them: strings, booleans, `undefined`. -/
inductive JSVal where
  | str : String → JSVal
  | bool : Bool → JSVal
  | undef : JSVal
deriving DecidableEq

/-- JS truthiness of the values above (a string is falsy iff empty). -/
def jsTruthy : JSVal → Bool
  | JSVal.str t => !t.isEmpty
  | JSVal.bool b => b
  | JSVal.undef => false

/-- `s[0]` on a JS string: a one-character string, or `undefined` if empty. -/
def jsCharAt (s : String) (i : Nat) : JSVal :=
  match s.data.get? i with
  | some c => JSVal.str (String.mk [c])
  | none => JSVal.undef

/-- JS strict equality `===` restricted to the values above (values of
different runtime type are never strictly equal). -/
def jsStrictEq : JSVal → JSVal → Bool
  | JSVal.str a, JSVal.str b => a = b
  | JSVal.bool a, JSVal.bool b => a = b
  | JSVal.undef, JSVal.undef => true
  | _, _ => false

/-- `isUrl(s)` (utiltities.js lines 7-10): `return !s[0] === '#' || regexp.test(s)`.
The regular-expression test is abstracted as a parameter `regexpTest`;
by JS precedence the left disjunct is `(!s[0]) === '#'`. -/
def isUrl (regexpTest : String → Bool) (s : String) : Bool :=
  jsStrictEq (JSVal.bool (!jsTruthy (jsCharAt s 0))) (JSVal.str "#") || regexpTest s

/-- The greyscale value of the pixel with pure index `p`: the unweighted
mean of its first three channels. -/
def grey0 (d : Nat → ℚ) (ch : Nat) (p : Nat) : ℚ :=
  (d (p * ch) + d (p * ch + 1) + d (p * ch + 2)) / 3

/-- Sum of greyscale values over the pixel rectangle `[0,x] × [0,y]`. -/
def greySum (d : Nat → ℚ) (w ch : Nat) (x y : Nat) : ℚ :=
  ∑ a ∈ Finset.range (x + 1), ∑ b ∈ Finset.range (y + 1), grey0 d ch (b * w + a)

/-- The value the second pass of `applyAdaptiveThreshold` decides for pixel
`(i, j)`, expressed against the state `st1` left by the first pass (the
second pass never modifies the integral image, and reads a pixel's
greyscale value before overwriting it). -/
def p2v (w h ch : Nat) (t : ℚ) (s2 : Nat) (st1 : AState) (i j : Nat) : ℚ :=
  let x1 := i - s2
  let x2 := if w ≤ i + s2 then w - 1 else i + s2
  let y1 := j - s2
  let y2 := if h ≤ j + s2 then h - 1 else j + s2
  let count := (x2 - x1) * (y2 - y1)
  let sum := st1.itg (y2 * w + x2) - st1.itg (y1 * w + x2) -
    st1.itg (y2 * w + x1) + st1.itg (y1 * w + x1)
  if st1.dat ((j * w + i) * ch) * (count : ℚ) < sum * (1 - t) then 0 else 255

/-- The value `applySimpleThreshold` decides for the pixel starting at
index `i` of the original data. -/
def simpleValue (d : Nat → ℚ) (i : Nat) : ℚ :=
  if (d i + d (i + 1) + d (i + 2)) / 3 > 127 then 255 else 0

/-- The length of the longest candidate in a collection (`0` if empty). -/
def maxLenOf (l : List String) : Nat := l.foldr (fun s m => max s.length m) 0

/-- The first non-`'?'` character held by any candidate at position `j`
(`'?'` when every candidate holds `'?'` there or the list is empty). -/
def firstNonWild : List String → Nat → Char
  | [], _ => '?'
  | r :: rest, j =>
      let c := r.data.getD j '?'
      if c = '?' then firstNonWild rest j else c

/-- Sorted by non-increasing string length. -/
def SortedDesc (l : List String) : Prop :=
  List.Pairwise (fun a b : String => b.length ≤ a.length) l

/-- Loop-invariant rule for `Nat.fold`: if `P` holds initially and each
iteration `k < n` preserves it, it holds after the loop. -/
theorem fold_inv {α : Type} (f : Nat → α → α) (P : Nat → α → Prop) :
    ∀ (n : Nat) (a : α), P 0 a → (∀ k b, k < n → P k b → P (k + 1) (f k b)) →
      P n (Nat.fold f n a)
  | 0, _, h0, _ => h0
  | n + 1, a, h0, hs =>
      hs n _ (Nat.lt_succ_self n)
        (fold_inv f P n a h0 (fun k b hk => hs k b (Nat.lt_succ_of_lt hk)))

theorem jsStrictEq_bool_str (b : Bool) (t : String) :
    jsStrictEq (JSVal.bool b) (JSVal.str t) = false := rfl

theorem insertByLen_perm (l : List String) (s : String) :
    List.Perm (insertByLen l s) (s :: l) := by
  induction l with
  | nil => simp [insertByLen]
  | cons t ts ih =>
      by_cases h : s.length ≤ t.length
      · simp only [insertByLen, if_pos h]
        exact (ih.cons t).trans (List.Perm.swap s t ts)
      · simp [insertByLen, if_neg h]

theorem sortAux_perm : ∀ (l acc : List String),
    List.Perm (l.foldl insertByLen acc) (acc ++ l) := by
  intro l
  induction l with
  | nil => intro acc; simp
  | cons s l ih =>
      intro acc
      simp only [List.foldl_cons]
      refine (ih (insertByLen acc s)).trans ?_
      exact (((insertByLen_perm acc s).append_right l).trans List.perm_middle.symm)

theorem sortByLenDesc_perm (l : List String) : List.Perm (sortByLenDesc l) l := by
  simpa using sortAux_perm l []

theorem insertByLen_sorted (l : List String) (s : String) (h : SortedDesc l) :
    SortedDesc (insertByLen l s) := by
  induction l with
  | nil => simp [insertByLen, SortedDesc]
  | cons t ts ih =>
      rcases List.pairwise_cons.mp h with ⟨ht, hts⟩
      by_cases hle : s.length ≤ t.length
      · simp only [insertByLen, if_pos hle]
        refine List.pairwise_cons.mpr ⟨?_, ih hts⟩
        intro x hx
        rcases List.mem_cons.mp ((insertByLen_perm ts s).subset hx) with rfl | hx3
        · exact hle
        · exact ht x hx3
      · simp only [insertByLen, if_neg hle]
        refine List.pairwise_cons.mpr ⟨?_, h⟩
        intro x hx
        rcases List.mem_cons.mp hx with rfl | hx2
        · exact Nat.le_of_lt (Nat.lt_of_not_le hle)
        · exact Nat.le_trans (ht x hx2) (Nat.le_of_lt (Nat.lt_of_not_le hle))

theorem sortAux_sorted : ∀ (l acc : List String), SortedDesc acc →
    SortedDesc (l.foldl insertByLen acc) := by
  intro l
  induction l with
  | nil => intro acc h; simpa using h
  | cons s l ih =>
      intro acc h
      simpa using ih (insertByLen acc s) (insertByLen_sorted acc s h)

theorem sortByLenDesc_sorted (l : List String) : SortedDesc (sortByLenDesc l) := by
  simpa [sortByLenDesc] using sortAux_sorted l [] (by simp [SortedDesc])

theorem insertByLen_filter_eq (l : List String) (s : String) (h : SortedDesc l) :
    (insertByLen l s).filter (fun r => r.length == s.length) =
      l.filter (fun r => r.length == s.length) ++ [s] := by
  induction l with
  | nil => simp [insertByLen]
  | cons t ts ih =>
      rcases List.pairwise_cons.mp h with ⟨ht, hts⟩
      by_cases hle : s.length ≤ t.length
      · by_cases htl : t.length = s.length
        · simp [insertByLen, if_pos hle, List.filter_cons, htl, ih hts]
        · simp [insertByLen, if_pos hle, List.filter_cons, htl, ih hts]
      · have hlt : t.length < s.length := Nat.lt_of_not_le hle
        have hfil : (t :: ts).filter (fun r => r.length == s.length) = [] := by
          rw [List.filter_eq_nil_iff]
          intro a ha
          have halen : a.length ≤ t.length := by
            rcases List.mem_cons.mp ha with rfl | ha2
            · exact Nat.le_refl _
            · exact ht a ha2
          have hne : ¬ a.length = s.length := by omega
          simpa using hne
        simp [insertByLen, if_neg hle, List.filter_cons, hfil]

theorem insertByLen_filter_ne (l : List String) (s : String) (n : Nat) (hn : s.length ≠ n) :
    (insertByLen l s).filter (fun r => r.length == n) =
      l.filter (fun r => r.length == n) := by
  induction l with
  | nil => simp [insertByLen, hn]
  | cons t ts ih =>
      by_cases hle : s.length ≤ t.length
      · simp [insertByLen, if_pos hle, List.filter_cons, ih]
      · simp [insertByLen, if_neg hle, List.filter_cons, hn]

theorem sortAux_filter (n : Nat) : ∀ (l acc : List String), SortedDesc acc →
    (l.foldl insertByLen acc).filter (fun r => r.length == n) =
      acc.filter (fun r => r.length == n) ++ l.filter (fun r => r.length == n) := by
  intro l
  induction l with
  | nil => intro acc _; simp
  | cons s l ih =>
      intro acc h
      simp only [List.foldl_cons]
      rw [ih (insertByLen acc s) (insertByLen_sorted acc s h)]
      by_cases hs : s.length = n
      · subst hs
        rw [insertByLen_filter_eq acc s h]
        simp [List.filter_cons]
      · rw [insertByLen_filter_ne acc s n hs]
        simp [List.filter_cons, hs]

theorem sortByLenDesc_filter (l : List String) (n : Nat) :
    (sortByLenDesc l).filter (fun r => r.length == n) =
      l.filter (fun r => r.length == n) := by
  simpa [sortByLenDesc] using sortAux_filter n l [] (by simp [SortedDesc])

theorem le_maxLenOf : ∀ (l : List String) (s : String), s ∈ l → s.length ≤ maxLenOf l := by
  intro l
  induction l with
  | nil => intro s hs; cases hs
  | cons t ts ih =>
      intro s hs
      rcases List.mem_cons.mp hs with rfl | h2
      · exact Nat.le_max_left _ _
      · exact Nat.le_trans (ih s h2) (Nat.le_max_right _ _)

theorem maxLenOf_attained : ∀ (l : List String), l ≠ [] → ∃ s ∈ l, s.length = maxLenOf l := by
  intro l
  induction l with
  | nil => intro h; exact absurd rfl h
  | cons t ts ih =>
      intro _
      by_cases hts : ts = []
      · subst hts
        exact ⟨t, List.mem_cons_self _ _, by show t.length = max t.length (maxLenOf []) ; simp [maxLenOf]⟩
      · rcases ih hts with ⟨s, hs, hlen⟩
        by_cases hc : maxLenOf ts ≤ t.length
        · exact ⟨t, List.mem_cons_self _ _, by show t.length = max t.length (maxLenOf ts) ; omega⟩
        · refine ⟨s, List.mem_cons_of_mem t hs, ?_⟩
          show s.length = max t.length (maxLenOf ts)
          omega

theorem sorted_take_max : ∀ (l : List String) (L : Nat), SortedDesc l →
    (∀ s ∈ l, s.length ≤ L) →
    ∃ suf, l = l.filter (fun r => r.length == L) ++ suf ∧ ∀ t ∈ suf, t.length < L := by
  intro l
  induction l with
  | nil => intro L _ _; exact ⟨[], by simp, by simp⟩
  | cons r l ih =>
      intro L hsort hle
      rcases List.pairwise_cons.mp hsort with ⟨hr, hl⟩
      by_cases hrL : r.length = L
      · rcases ih L hl (fun s hs => hle s (List.mem_cons_of_mem r hs)) with ⟨suf, heq, hsuf⟩
        refine ⟨suf, ?_, hsuf⟩
        rw [List.filter_cons]
        simp only [hrL, beq_self_eq_true, if_true]
        rw [List.cons_append]
        exact congrArg (r :: ·) heq
      · have hrlt : r.length < L := Nat.lt_of_le_of_ne (hle r (List.mem_cons_self _ _)) hrL
        have hall : ∀ t ∈ r :: l, t.length < L := by
          intro t ht
          rcases List.mem_cons.mp ht with rfl | h2
          · exact hrlt
          · exact Nat.lt_of_le_of_lt (hr t h2) hrlt
        have hfil : (r :: l).filter (fun x => x.length == L) = [] := by
          rw [List.filter_eq_nil_iff]
          intro a ha
          simpa using Nat.ne_of_lt (hall a ha)
        exact ⟨r :: l, by rw [hfil]; rfl, hall⟩

theorem insertByLen_append (l : List String) (s : String)
    (h : ∀ t ∈ l, s.length ≤ t.length) : insertByLen l s = l ++ [s] := by
  induction l with
  | nil => rfl
  | cons t ts ih =>
      simp only [insertByLen, if_pos (h t (List.mem_cons_self _ _))]
      rw [ih (fun x hx => h x (List.mem_cons_of_mem t hx))]
      rfl

theorem sortByLenDesc_all_eq (l : List String) (L : Nat)
    (h : ∀ t ∈ l, t.length = L) : sortByLenDesc l = l := by
  have key : ∀ (l acc : List String), (∀ t ∈ l, t.length = L) → (∀ t ∈ acc, t.length = L) →
      l.foldl insertByLen acc = acc ++ l := by
    intro l
    induction l with
    | nil => intro acc _ _; simp
    | cons s l ih =>
        intro acc h1 h2
        simp only [List.foldl_cons]
        rw [insertByLen_append acc s
          (fun t ht => by rw [h2 t ht, h1 s (List.mem_cons_self _ _)])]
        rw [ih (acc ++ [s]) (fun t ht => h1 t (List.mem_cons_of_mem s ht))]
        · simp
        · intro t ht
          rcases List.mem_append.mp ht with h3 | h3
          · exact h2 t h3
          · simp at h3
            rw [h3]
            exact h1 s (List.mem_cons_self _ _)
  simpa [sortByLenDesc] using key l [] h (by simp)

theorem cellAt_nil (j : Nat) : cellAt [] j = none := by
  cases j <;> rfl

theorem cellAt_cons_zero (x : Option Char) (xs : List (Option Char)) :
    cellAt (x :: xs) 0 = x := rfl

theorem cellAt_cons_succ (x : Option Char) (xs : List (Option Char)) (j : Nat) :
    cellAt (x :: xs) (j + 1) = cellAt xs j := rfl

theorem arraySet_cellAt : ∀ (i : Nat) (fin : List (Option Char)) (c : Char) (j : Nat),
    cellAt (arraySet fin i c) j = if j = i then some c else cellAt fin j := by
  intro i
  induction i with
  | zero =>
      intro fin c j
      cases fin <;> cases j <;>
        simp [arraySet, cellAt_nil, cellAt_cons_zero, cellAt_cons_succ]
  | succ n ih =>
      intro fin c j
      cases fin with
      | nil =>
          cases j with
          | zero => simp [arraySet, cellAt_nil, cellAt_cons_zero]
          | succ j =>
              rw [show arraySet [] (n + 1) c = none :: arraySet [] n c from rfl,
                cellAt_cons_succ, ih]
              by_cases hj : j = n
              · simp [hj]
              · rw [if_neg hj, if_neg (by omega), cellAt_nil, cellAt_nil]
      | cons x xs =>
          cases j with
          | zero => simp [arraySet, cellAt_cons_zero]
          | succ j =>
              rw [show arraySet (x :: xs) (n + 1) c = x :: arraySet xs n c from rfl,
                cellAt_cons_succ, ih, cellAt_cons_succ]
              by_cases hj : j = n
              · simp [hj]
              · rw [if_neg hj, if_neg (by omega)]

theorem arraySet_length : ∀ (i : Nat) (fin : List (Option Char)) (c : Char),
    (arraySet fin i c).length = max fin.length (i + 1) := by
  intro i
  induction i with
  | zero => intro fin c; cases fin <;> simp [arraySet]
  | succ n ih =>
      intro fin c
      cases fin with
      | nil =>
          rw [show arraySet [] (n + 1) c = none :: arraySet [] n c from rfl]
          simp [ih]
      | cons x xs =>
          rw [show arraySet (x :: xs) (n + 1) c = x :: arraySet xs n c from rfl]
          simp [ih]
          omega

theorem cellAt_eq_none_of_le : ∀ (fin : List (Option Char)) (j : Nat),
    fin.length ≤ j → cellAt fin j = none := by
  intro fin
  induction fin with
  | nil => intro j _; exact cellAt_nil j
  | cons x xs ih =>
      intro j hj
      cases j with
      | zero => simp at hj
      | succ j =>
          rw [cellAt_cons_succ]
          exact ih j (by simpa using hj)

theorem lt_of_cellAt_ne_none (fin : List (Option Char)) (j : Nat)
    (h : cellAt fin j ≠ none) : j < fin.length := by
  by_contra hc
  exact h (cellAt_eq_none_of_le fin j (Nat.le_of_not_lt hc))

theorem fillResult_cellAt : ∀ (cs : List Char) (fin : List (Option Char)) (i j : Nat),
    cellAt (fillResult fin i cs) j =
      if i ≤ j ∧ j < i + cs.length then
        (if cellAt fin j = none ∨ cellAt fin j = some '?'
         then some (cs.getD (j - i) '?') else cellAt fin j)
      else cellAt fin j := by
  intro cs
  induction cs with
  | nil =>
      intro fin i j
      have h : ¬ (i ≤ j ∧ j < i + 0) := by omega
      simp only [List.length_nil]
      rw [show fillResult fin i [] = fin from rfl, if_neg h]
  | cons c cs ih =>
      intro fin i j
      simp only [fillResult, List.length_cons]
      rw [ih]
      have hwc : (if c = '?' then '?' else c) = c := by
        by_cases h : c = '?' <;> simp [h]
      have hfin2 : ∀ j2, cellAt
          (if cellAt fin i = none ∨ cellAt fin i = some '?'
           then arraySet fin i (if c = '?' then '?' else c) else fin) j2 =
          if j2 = i ∧ (cellAt fin i = none ∨ cellAt fin i = some '?')
          then some c else cellAt fin j2 := by
        intro j2
        by_cases hcond : cellAt fin i = none ∨ cellAt fin i = some '?'
        · rw [if_pos hcond, arraySet_cellAt, hwc]
          by_cases hji : j2 = i <;> simp [hji, hcond]
        · rw [if_neg hcond]
          by_cases hji : j2 = i <;> simp [hji, hcond]
      by_cases hij : j = i
      · have h1 : ¬ (i + 1 ≤ j ∧ j < i + 1 + cs.length) := by omega
        rw [if_neg h1, hfin2, hij]
        have h2 : i ≤ i ∧ i < i + (cs.length + 1) := by omega
        rw [if_pos h2, Nat.sub_self, List.getD_cons_zero]
        by_cases hcond : cellAt fin i = none ∨ cellAt fin i = some '?'
        · rw [if_pos ⟨rfl, hcond⟩, if_pos hcond]
        · rw [if_neg (fun hh => hcond hh.2), if_neg hcond]
      · have hnot : ¬ (j = i ∧ (cellAt fin i = none ∨ cellAt fin i = some '?')) :=
          fun hh => hij hh.1
        by_cases hrange : i + 1 ≤ j ∧ j < i + 1 + cs.length
        · rw [if_pos hrange, hfin2, if_neg hnot,
            if_pos (show i ≤ j ∧ j < i + (cs.length + 1) from by omega)]
          by_cases hcond : cellAt fin j = none ∨ cellAt fin j = some '?'
          · rw [if_pos hcond, if_pos hcond,
              show j - i = (j - (i + 1)) + 1 from by omega, List.getD_cons_succ]
          · rw [if_neg hcond, if_neg hcond]
        · rw [if_neg hrange, hfin2, if_neg hnot,
            if_neg (show ¬ (i ≤ j ∧ j < i + (cs.length + 1)) from by omega)]

theorem fillResult_length : ∀ (cs : List Char) (fin : List (Option Char)) (i : Nat),
    cs ≠ [] → (fillResult fin i cs).length = max fin.length (i + cs.length) := by
  intro cs
  induction cs with
  | nil => intro fin i h; exact absurd rfl h
  | cons c cs ih =>
      intro fin i _
      simp only [fillResult]
      have hlen : (if cellAt fin i = none ∨ cellAt fin i = some '?'
          then arraySet fin i (if c = '?' then '?' else c) else fin).length =
          max fin.length (i + 1) := by
        by_cases hcond : cellAt fin i = none ∨ cellAt fin i = some '?'
        · rw [if_pos hcond, arraySet_length]
        · rw [if_neg hcond]
          have : i < fin.length := lt_of_cellAt_ne_none fin i (fun hn => hcond (Or.inl hn))
          omega
      by_cases hcs : cs = []
      · subst hcs
        simp only [fillResult, hlen, List.length_cons, List.length_nil]
      · rw [ih _ (i + 1) hcs, hlen]
        simp only [List.length_cons]
        omega

theorem mergeStep_run (fin : List (Option Char)) (L : Nat) (r : String) (hr : r.length = L) :
    mergeStep (fin, L) r = (fillResult fin 0 r.data, L) := by
  simp [mergeStep, hr]

theorem mergeFold_eqlen : ∀ (rs : List String) (L : Nat) (fin : List (Option Char)),
    (∀ r ∈ rs, r.length = L) → fin.length = L → (∀ j, j < L → cellAt fin j ≠ none) →
    (rs.foldl mergeStep (fin, L)).2 = L ∧
    (rs.foldl mergeStep (fin, L)).1.length = L ∧
    ∀ j, j < L → ∀ c, cellAt fin j = some c →
      cellAt ((rs.foldl mergeStep (fin, L)).1) j =
        some (if c = '?' then firstNonWild rs j else c) := by
  intro rs
  induction rs with
  | nil =>
      intro L fin _ hflen _
      refine ⟨rfl, hflen, ?_⟩
      intro j hj c hc
      show cellAt fin j = _
      rw [hc]
      by_cases hq : c = '?' <;> simp [hq, firstNonWild]
  | cons r rs ih =>
      intro L fin hall hflen hsome
      have hr : r.length = L := hall r (List.mem_cons_self _ _)
      have hdlen : r.data.length = L := by rw [← hr]; rfl
      have hstep : mergeStep (fin, L) r = (fillResult fin 0 r.data, L) := mergeStep_run fin L r hr
      have hfin1len : (fillResult fin 0 r.data).length = L := by
        by_cases hd : r.data = []
        · rw [hd]
          exact hflen
        · rw [fillResult_length r.data fin 0 hd, hdlen, hflen]
          omega
      have hfin1cell : ∀ j, j < L → ∀ c, cellAt fin j = some c →
          cellAt (fillResult fin 0 r.data) j = some (if c = '?' then r.data.getD j '?' else c) := by
        intro j hj c hc
        rw [fillResult_cellAt, if_pos (show 0 ≤ j ∧ j < 0 + r.data.length from by omega), hc]
        by_cases hq : c = '?'
        · rw [if_pos (Or.inr (by rw [hq])), if_pos hq]
          simp
        · rw [if_neg (by simp [hq]), if_neg hq]
      have hfin1some : ∀ j, j < L → cellAt (fillResult fin 0 r.data) j ≠ none := by
        intro j hj
        rcases Option.ne_none_iff_exists'.mp (hsome j hj) with ⟨c, hc⟩
        rw [hfin1cell j hj c hc]
        simp
      obtain ⟨hm2, hlen2, hcell2⟩ :=
        ih L (fillResult fin 0 r.data) (fun t ht => hall t (List.mem_cons_of_mem r ht))
          hfin1len hfin1some
      rw [List.foldl_cons, hstep]
      refine ⟨hm2, hlen2, ?_⟩
      intro j hj c hc
      rw [hcell2 j hj _ (hfin1cell j hj c hc)]
      by_cases hq : c = '?'
      · by_cases hrq : r.data.getD j '?' = '?' <;> simp [hq, hrq, firstNonWild]
      · simp [hq, firstNonWild]

theorem mergeFold_skip : ∀ (suf : List String) (st : List (Option Char) × Nat),
    st.2 ≠ 0 → (∀ t ∈ suf, t.length ≠ st.2) → suf.foldl mergeStep st = st := by
  intro suf
  induction suf with
  | nil => intro st _ _; rfl
  | cons t ts ih =>
      intro st h0 hall
      rw [List.foldl_cons]
      have hstep : mergeStep st t = st := by
        simp only [mergeStep]
        rw [if_neg]
        rintro (h | h)
        · exact h0 h
        · exact hall t (List.mem_cons_self _ _) h
      rw [hstep]
      exact ih st h0 (fun x hx => hall x (List.mem_cons_of_mem t hx))

theorem filterMap_allsome_length : ∀ (fin : List (Option Char)),
    (∀ j, j < fin.length → cellAt fin j ≠ none) → (fin.filterMap id).length = fin.length := by
  intro fin
  induction fin with
  | nil => intro _; rfl
  | cons x xs ih =>
      intro h
      have hx : x ≠ none := by simpa [cellAt_cons_zero] using h 0 (by simp)
      rcases Option.ne_none_iff_exists'.mp hx with ⟨c, rfl⟩
      have ih2 := ih (fun j hj => by
        simpa [cellAt_cons_succ] using h (j + 1) (by simpa using Nat.succ_lt_succ hj))
      simp [List.filterMap_cons, ih2]

theorem filterMap_allsome_getD : ∀ (fin : List (Option Char)) (j : Nat), j < fin.length →
    (∀ k, k < fin.length → cellAt fin k ≠ none) →
    some ((fin.filterMap id).getD j '?') = cellAt fin j := by
  intro fin
  induction fin with
  | nil => intro j hj _; simp at hj
  | cons x xs ih =>
      intro j hj h
      have hx : x ≠ none := by simpa [cellAt_cons_zero] using h 0 (by simp)
      rcases Option.ne_none_iff_exists'.mp hx with ⟨c, rfl⟩
      cases j with
      | zero => simp [List.filterMap_cons, cellAt_cons_zero]
      | succ j =>
          rw [cellAt_cons_succ]
          have hlen : j < xs.length := by simpa using hj
          have h2 : ∀ k, k < xs.length → cellAt xs k ≠ none := fun k hk => by
            simpa [cellAt_cons_succ] using h (k + 1) (by simpa using Nat.succ_lt_succ hk)
          rw [← ih j hlen h2]
          simp [List.filterMap_cons]

theorem string_length_data (s : String) : s.length = s.data.length := rfl

theorem string_mk_data (l : List Char) : (String.mk l).data = l := rfl

theorem string_eq_of_data (a b : String) (h : a.data = b.data) : a = b := by
  cases a
  cases b
  exact congrArg String.mk h

theorem list_eq_of_getD : ∀ (l1 l2 : List Char), l1.length = l2.length →
    (∀ j, j < l1.length → l1.getD j '?' = l2.getD j '?') → l1 = l2 := by
  intro l1
  induction l1 with
  | nil =>
      intro l2 hlen _
      cases l2 with
      | nil => rfl
      | cons b l2 => simp at hlen
  | cons a l1 ih =>
      intro l2 hlen hgd
      cases l2 with
      | nil => simp at hlen
      | cons b l2 =>
          have h0 := hgd 0 (by simp)
          simp only [List.getD_cons_zero] at h0
          have htail : l1 = l2 := ih l2 (by simpa using hlen) (fun j hj => by
            simpa [List.getD_cons_succ] using hgd (j + 1) (by simpa using Nat.succ_lt_succ hj))
          rw [h0, htail]

theorem mergeFoldFull (F : List String) (L : Nat) (hne : F ≠ [])
    (hall : ∀ r ∈ F, r.length = L) :
    (F.foldl mergeStep ([], 0)).2 = L ∧
    (F.foldl mergeStep ([], 0)).1.length = L ∧
    ∀ j, j < L → cellAt ((F.foldl mergeStep ([], 0)).1) j = some (firstNonWild F j) := by
  cases F with
  | nil => exact absurd rfl hne
  | cons r rs2 =>
      have hr : r.length = L := hall r (List.mem_cons_self _ _)
      have hdlen : r.data.length = L := by rw [← hr]; rfl
      have hstep : mergeStep ([], 0) r = (fillResult [] 0 r.data, L) := by
        simp only [mergeStep]
        rw [hr]
        simp
      have hfin1len : (fillResult [] 0 r.data).length = L := by
        by_cases hd : r.data = []
        · rw [hd]
          show ([] : List (Option Char)).length = L
          rw [← hdlen, hd]
          rfl
        · rw [fillResult_length r.data [] 0 hd, hdlen]
          simp
      have hfin1cell : ∀ j, j < L → cellAt (fillResult [] 0 r.data) j =
          some (r.data.getD j '?') := by
        intro j hj
        rw [fillResult_cellAt, if_pos (show 0 ≤ j ∧ j < 0 + r.data.length from by omega),
          if_pos (Or.inl (cellAt_nil j))]
        simp
      have hfin1some : ∀ j, j < L → cellAt (fillResult [] 0 r.data) j ≠ none := by
        intro j hj
        rw [hfin1cell j hj]
        simp
      obtain ⟨hm2, hlen2, hcell2⟩ := mergeFold_eqlen rs2 L (fillResult [] 0 r.data)
        (fun t ht => hall t (List.mem_cons_of_mem r ht)) hfin1len hfin1some
      rw [List.foldl_cons, hstep]
      refine ⟨hm2, hlen2, ?_⟩
      intro j hj
      rw [hcell2 j hj _ (hfin1cell j hj)]
      by_cases hrq : r.data.getD j '?' = '?' <;> simp [hrq, firstNonWild]

theorem filterMax_all (rs : List String) :
    ∀ t ∈ rs.filter (fun r => r.length == maxLenOf rs), t.length = maxLenOf rs := by
  intro t ht
  have := List.of_mem_filter ht
  simpa using this

theorem filterMax_ne (rs : List String) (hrs : rs ≠ []) :
    rs.filter (fun r => r.length == maxLenOf rs) ≠ [] := by
  obtain ⟨s, hs, hslen⟩ := maxLenOf_attained rs hrs
  intro hFnil
  have : s ∈ rs.filter (fun r => r.length == maxLenOf rs) :=
    List.mem_filter.mpr ⟨hs, by simpa using hslen⟩
  rw [hFnil] at this
  cases this

theorem combine_eq_filter_fold (rs : List String) (hrs : rs ≠ []) :
    combineAllPossible rs =
      joinCells (((rs.filter (fun r => r.length == maxLenOf rs)).foldl mergeStep ([], 0)).1) := by
  by_cases hL0 : maxLenOf rs = 0
  · have hall : ∀ r ∈ rs, r.length = maxLenOf rs := by
      intro r hr
      have := le_maxLenOf rs r hr
      omega
    have hfil : rs.filter (fun r => r.length == maxLenOf rs) = rs := by
      apply List.filter_eq_self.mpr
      intro a ha
      simpa using hall a ha
    rw [hfil]
    simp only [combineAllPossible, combineAllPossibleRun,
      sortByLenDesc_all_eq rs (maxLenOf rs) hall]
  · have hperm := sortByLenDesc_perm rs
    have hle : ∀ s ∈ sortByLenDesc rs, s.length ≤ maxLenOf rs :=
      fun s hs => le_maxLenOf rs s (hperm.subset hs)
    obtain ⟨suf, hdecomp, hsuf⟩ :=
      sorted_take_max (sortByLenDesc rs) (maxLenOf rs) (sortByLenDesc_sorted rs) hle
    rw [sortByLenDesc_filter rs (maxLenOf rs)] at hdecomp
    have hFfold := mergeFoldFull (rs.filter (fun r => r.length == maxLenOf rs)) (maxLenOf rs)
      (filterMax_ne rs hrs) (filterMax_all rs)
    simp only [combineAllPossible, combineAllPossibleRun]
    rw [hdecomp, List.foldl_append,
      mergeFold_skip suf _ (by rw [hFfold.1]; exact hL0)
        (fun t ht => by rw [hFfold.1]; exact Nat.ne_of_lt (hsuf t ht))]

theorem combine_length (rs : List String) :
    (combineAllPossible rs).length = maxLenOf rs := by
  by_cases hrs : rs = []
  · subst hrs
    rfl
  · rw [combine_eq_filter_fold rs hrs]
    obtain ⟨_, hlen, hcell⟩ := mergeFoldFull (rs.filter (fun r => r.length == maxLenOf rs))
      (maxLenOf rs) (filterMax_ne rs hrs) (filterMax_all rs)
    rw [joinCells, string_length_data, string_mk_data,
      filterMap_allsome_length _ (fun j hj => by
        rw [hcell j (by rw [← hlen]; exact hj)]
        simp)]
    exact hlen

theorem combine_filter (rs : List String) :
    combineAllPossible rs =
      combineAllPossible (rs.filter (fun r => r.length == maxLenOf rs)) := by
  by_cases hrs : rs = []
  · subst hrs
    rfl
  · rw [combine_eq_filter_fold rs hrs]
    simp only [combineAllPossible, combineAllPossibleRun,
      sortByLenDesc_all_eq _ (maxLenOf rs) (filterMax_all rs)]

theorem combine_eqlen_getD (rs : List String) (L : Nat) (h : ∀ r ∈ rs, r.length = L) :
    ∀ j, j < L → (combineAllPossible rs).data.getD j '?' = firstNonWild rs j := by
  intro j hj
  cases hne : rs with
  | nil =>
      simp [combineAllPossible, combineAllPossibleRun, sortByLenDesc, joinCells,
        firstNonWild, string_mk_data, List.getD]
  | cons r rs2 =>
      rw [← hne]
      have hrs : rs ≠ [] := by rw [hne]; simp
      obtain ⟨_, hlen, hcell⟩ := mergeFoldFull rs L hrs h
      have hcomb : combineAllPossible rs = joinCells ((rs.foldl mergeStep ([], 0)).1) := by
        simp only [combineAllPossible, combineAllPossibleRun, sortByLenDesc_all_eq rs L h]
      rw [hcomb, joinCells, string_mk_data]
      have hg := filterMap_allsome_getD ((rs.foldl mergeStep ([], 0)).1) j
        (by rw [hlen]; exact hj)
        (fun k hk => by
          rw [hcell k (by rw [← hlen]; exact hk)]
          simp)
      rw [hcell j hj] at hg
      exact Option.some.inj hg

theorem combine_eqlen_length (rs : List String) (L : Nat) (hne : rs ≠ [])
    (h : ∀ r ∈ rs, r.length = L) : (combineAllPossible rs).length = L := by
  obtain ⟨_, hlen, hcell⟩ := mergeFoldFull rs L hne h
  have hcomb : combineAllPossible rs = joinCells ((rs.foldl mergeStep ([], 0)).1) := by
    simp only [combineAllPossible, combineAllPossibleRun, sortByLenDesc_all_eq rs L h]
  rw [hcomb, joinCells, string_length_data, string_mk_data,
    filterMap_allsome_length _ (fun j hj => by
      rw [hcell j (by rw [← hlen]; exact hj)]
      simp)]
  exact hlen

theorem upd_self (f : Nat → ℚ) (i : Nat) (v : ℚ) : upd f i v i = v := by
  simp [upd]

theorem upd_other (f : Nat → ℚ) (i : Nat) (v : ℚ) (j : Nat) (h : j ≠ i) :
    upd f i v j = f j := by
  simp [upd, h]

theorem write3_at (d : Nat → ℚ) (index : Nat) (v : ℚ) (k : Nat) :
    write3 d index v k =
      if k = index ∨ k = index + 1 ∨ k = index + 2 then v else d k := by
  simp only [write3, upd]
  by_cases h2 : k = index + 2 <;> by_cases h1 : k = index + 1 <;>
    by_cases h0 : k = index <;> simp [h0, h1, h2]

theorem block_index_inj (ch p1 o1 p2 o2 : Nat) (h1 : o1 < ch) (h2 : o2 < ch)
    (he : p1 * ch + o1 = p2 * ch + o2) : p1 = p2 ∧ o1 = o2 := by
  have hpos : 0 < ch := by omega
  have e1 : (p1 * ch + o1) / ch = p1 := by
    rw [Nat.mul_comm p1 ch, Nat.mul_add_div hpos, Nat.div_eq_of_lt h1, Nat.add_zero]
  have e2 : (p2 * ch + o2) / ch = p2 := by
    rw [Nat.mul_comm p2 ch, Nat.mul_add_div hpos, Nat.div_eq_of_lt h2, Nat.add_zero]
  have hp : p1 = p2 := by rw [← e1, ← e2, he]
  refine ⟨hp, ?_⟩
  rw [hp] at he
  exact Nat.add_left_cancel he

theorem write3_block (dd : Nat → ℚ) (ch : Nat) (hch : 3 ≤ ch) (p : Nat) (v : ℚ)
    (q off : Nat) (hoff : off < ch) :
    write3 dd (p * ch) v (q * ch + off) =
      if q = p ∧ off < 3 then v else dd (q * ch + off) := by
  rw [write3_at]
  by_cases hcase : q = p ∧ off < 3
  · obtain ⟨rfl, h3⟩ := hcase
    have hyes : q * ch + off = q * ch ∨ q * ch + off = q * ch + 1 ∨
        q * ch + off = q * ch + 2 := by
      rcases (show off = 0 ∨ off = 1 ∨ off = 2 from by omega) with rfl | rfl | rfl
      · exact Or.inl (Nat.add_zero _)
      · exact Or.inr (Or.inl rfl)
      · exact Or.inr (Or.inr rfl)
    rw [if_pos hyes, if_pos ⟨rfl, h3⟩]
  · have hnot : ¬ (q * ch + off = p * ch ∨ q * ch + off = p * ch + 1 ∨
        q * ch + off = p * ch + 2) := by
      rintro (hk | hk | hk)
      · obtain ⟨ha, hb⟩ := block_index_inj ch q off p 0 hoff (by omega)
          (by rw [Nat.add_zero]; exact hk)
        exact hcase ⟨ha, by omega⟩
      · obtain ⟨ha, hb⟩ := block_index_inj ch q off p 1 hoff (by omega) hk
        exact hcase ⟨ha, by omega⟩
      · obtain ⟨ha, hb⟩ := block_index_inj ch q off p 2 hoff (by omega) hk
        exact hcase ⟨ha, by omega⟩
    rw [if_neg hnot, if_neg hcase]

theorem write3_pixel (dd : Nat → ℚ) (w ch : Nat) (hch : 3 ≤ ch) (i j : Nat) (hi : i < w)
    (v : ℚ) (x y off : Nat) (hx : x < w) (hoff : off < ch) :
    write3 dd ((j * w + i) * ch) v ((y * w + x) * ch + off) =
      if x = i ∧ y = j ∧ off < 3 then v else dd ((y * w + x) * ch + off) := by
  rw [write3_block dd ch hch (j * w + i) v (y * w + x) off hoff]
  have hiff : (y * w + x = j * w + i ∧ off < 3) ↔ (x = i ∧ y = j ∧ off < 3) := by
    constructor
    · rintro ⟨hpq, h3⟩
      obtain ⟨hy, hx2⟩ := block_index_inj w y x j i hx hi hpq
      exact ⟨hx2, hy, h3⟩
    · rintro ⟨rfl, rfl, h3⟩
      exact ⟨rfl, h3⟩
  exact if_congr hiff rfl rfl

theorem upd_cell (g : Nat → ℚ) (w : Nat) (i j : Nat) (hi : i < w) (v : ℚ)
    (x y : Nat) (hx : x < w) :
    upd g (j * w + i) v (y * w + x) = if x = i ∧ y = j then v else g (y * w + x) := by
  simp only [upd]
  have hiff : (y * w + x = j * w + i) ↔ (x = i ∧ y = j) := by
    constructor
    · intro hpq
      obtain ⟨hy, hx2⟩ := block_index_inj w y x j i hx hi hpq
      exact ⟨hx2, hy⟩
    · rintro ⟨rfl, rfl⟩
      exact rfl
  exact if_congr hiff rfl rfl

theorem simpleFold_spec (d : Nat → ℚ) (ch : Nat) (hch : 3 ≤ ch) (n : Nat) :
    ∀ k off, k < n → off < ch →
      Nat.fold (simpleBody ch) n d (k * ch + off) =
        if off < 3 then simpleValue d (k * ch) else d (k * ch + off) := by
  have main := fold_inv (simpleBody ch) (fun m dd => ∀ k off, k < n → off < ch →
      dd (k * ch + off) =
        if k < m ∧ off < 3 then simpleValue d (k * ch) else d (k * ch + off)) n d
    ?base ?step
  case base =>
    intro k off _ _
    rw [if_neg (by omega)]
  case step =>
    intro m dd _ hP k off hk hoff
    simp only [simpleBody]
    rw [write3_block dd ch hch m _ k off hoff]
    by_cases hcase : k = m ∧ off < 3
    · obtain ⟨rfl, h3⟩ := hcase
      rw [if_pos ⟨rfl, h3⟩]
      rw [if_pos (show k < k + 1 ∧ off < 3 from ⟨Nat.lt_succ_self k, h3⟩)]
      have e0 := hP k 0 hk (by omega)
      rw [if_neg (by omega), Nat.add_zero] at e0
      have e1 := hP k 1 hk (by omega)
      rw [if_neg (by omega)] at e1
      have e2 := hP k 2 hk (by omega)
      rw [if_neg (by omega)] at e2
      rw [e0, e1, e2]
      rfl
    · rw [if_neg hcase, hP k off hk hoff]
      exact if_congr (by omega) rfl rfl
  intro k off hk hoff
  rw [main k off hk hoff]
  exact if_congr (by omega) rfl rfl

theorem applySimpleThreshold_spec (d : Nat → ℚ) (w h ch len : Nat) (hch : 3 ≤ ch)
    (hw : 0 < w) (hh : 0 < h) (hlen : len = w * h * ch) :
    ∀ k off, k < w * h → off < 3 →
      applySimpleThreshold d len w h (k * ch + off) = simpleValue d (k * ch) := by
  intro k off hk hoff
  have hch2 : len / (w * h) = ch := by
    rw [hlen]
    exact Nat.mul_div_cancel_left ch (Nat.mul_pos hw hh)
  have hn : (len + ch - 1) / ch = w * h := by
    rw [hlen, Nat.mul_comm (w * h) ch, Nat.add_sub_assoc (by omega : 1 ≤ ch),
      Nat.mul_add_div (by omega : 0 < ch), Nat.div_eq_of_lt (by omega : ch - 1 < ch),
      Nat.add_zero]
  simp only [applySimpleThreshold]
  rw [hch2, hn, simpleFold_spec d ch hch (w * h) k off hk (by omega), if_pos hoff]

theorem greySum_zero_col (d : Nat → ℚ) (w ch j : Nat) :
    greySum d w ch 0 j = ∑ b ∈ Finset.range (j + 1), grey0 d ch (b * w + 0) := by
  simp [greySum]

theorem greySum_succ_col (d : Nat → ℚ) (w ch x j : Nat) :
    greySum d w ch (x + 1) j =
      greySum d w ch x j + ∑ b ∈ Finset.range (j + 1), grey0 d ch (b * w + (x + 1)) := by
  simp [greySum, Finset.sum_range_succ]

theorem adaptiveFirstPass_spec (d : Nat → ℚ) (w h ch : Nat) (hch : 3 ≤ ch) :
    (∀ x y off, x < w → y < h → off < ch →
      (adaptiveFirstPass d w h ch).dat ((y * w + x) * ch + off) =
        if off < 3 then grey0 d ch (y * w + x) else d ((y * w + x) * ch + off)) ∧
    (∀ x y, x < w → y < h →
      (adaptiveFirstPass d w h ch).itg (y * w + x) = greySum d w ch x y) := by
  have main := fold_inv (p1ColBody w h ch) (fun i st =>
      (∀ x y off, x < w → y < h → off < ch →
        st.dat ((y * w + x) * ch + off) =
          if x < i ∧ off < 3 then grey0 d ch (y * w + x) else d ((y * w + x) * ch + off)) ∧
      (∀ x y, x < w → y < h → x < i → st.itg (y * w + x) = greySum d w ch x y))
    w ⟨d, fun _ => 0⟩ ?base ?step
  case base =>
    constructor
    · intro x y off _ _ _
      rw [if_neg (by omega)]
    · intro x y _ _ hx
      exact absurd hx (by omega)
  case step =>
    intro i st hi hP
    obtain ⟨hdat, hitg⟩ := hP
    have inner := fold_inv (p1RowBody w ch i) (fun j stp =>
        (∀ x y off, x < w → y < h → off < ch →
          stp.1.dat ((y * w + x) * ch + off) =
            if (x < i ∨ (x = i ∧ y < j)) ∧ off < 3
            then grey0 d ch (y * w + x) else d ((y * w + x) * ch + off)) ∧
        (∀ x y, x < w → y < h → (x < i ∨ (x = i ∧ y < j)) →
          stp.1.itg (y * w + x) = greySum d w ch x y) ∧
        stp.2 = ∑ b ∈ Finset.range j, grey0 d ch (b * w + i))
      h (st, 0) ?ibase ?istep
    case ibase =>
      refine ⟨?_, ?_, by simp⟩
      · intro x y off hx hy hoff
        rw [hdat x y off hx hy hoff]
        exact if_congr (by omega) rfl rfl
      · intro x y hx hy hcond
        exact hitg x y hx hy (by omega)
    case istep =>
      intro j stp hj hQ
      obtain ⟨st1, sum1⟩ := stp
      obtain ⟨hd1, hi1, hs1⟩ := hQ
      dsimp only at hd1 hi1 hs1
      have e0 := hd1 i j 0 hi hj (by omega)
      rw [if_neg (by omega), Nat.add_zero] at e0
      have e1 := hd1 i j 1 hi hj (by omega)
      rw [if_neg (by omega)] at e1
      have e2 := hd1 i j 2 hi hj (by omega)
      rw [if_neg (by omega)] at e2
      have hv : (st1.dat ((j * w + i) * ch) + st1.dat ((j * w + i) * ch + 1) +
          st1.dat ((j * w + i) * ch + 2)) / 3 = grey0 d ch (j * w + i) := by
        rw [e0, e1, e2]
        rfl
      simp only [p1RowBody]
      refine ⟨?_, ?_, ?_⟩
      · intro x y off hx hy hoff
        rw [write3_pixel st1.dat w ch hch i j hi _ x y off hx hoff]
        by_cases hcase : x = i ∧ y = j ∧ off < 3
        · rw [if_pos hcase,
            if_pos (show (x < i ∨ (x = i ∧ y < j + 1)) ∧ off < 3 from
              ⟨Or.inr ⟨hcase.1, by omega⟩, hcase.2.2⟩),
            hcase.1, hcase.2.1]
          exact hv
        · rw [if_neg hcase, hd1 x y off hx hy hoff]
          exact if_congr (by omega) rfl rfl
      · intro x y hx hy hcond
        by_cases hio : i = 0
        · rw [if_pos hio, upd_cell st1.itg w i j hi _ x y hx]
          by_cases hcase : x = i ∧ y = j
          · rw [if_pos hcase, hcase.1, hcase.2, hs1, hv, hio, greySum_zero_col,
              Finset.sum_range_succ]
          · rw [if_neg hcase]
            exact hi1 x y hx hy (by omega)
        · rw [if_neg hio, upd_cell st1.itg w i j hi _ x y hx]
          by_cases hcase : x = i ∧ y = j
          · have hm1 : j * w + i - 1 = j * w + (i - 1) := by omega
            have hprev := hi1 (i - 1) j (by omega) hj (Or.inl (by omega))
            rw [if_pos hcase, hcase.1, hcase.2, hm1, hprev, hs1, hv]
            have hsplit : greySum d w ch i j =
                greySum d w ch (i - 1) j +
                  ∑ b ∈ Finset.range (j + 1), grey0 d ch (b * w + i) := by
              have hi2 : i - 1 + 1 = i := by omega
              rw [← hi2, greySum_succ_col, hi2]
            rw [hsplit, Finset.sum_range_succ]
          · rw [if_neg hcase]
            exact hi1 x y hx hy (by omega)
      · dsimp only
        rw [hs1, hv, Finset.sum_range_succ]
    obtain ⟨hd2, hi2, _⟩ := inner
    constructor
    · intro x y off hx hy hoff
      rw [show (p1ColBody w h ch i st).dat =
          ((Nat.fold (p1RowBody w ch i) h (st, 0)).1).dat from rfl,
        hd2 x y off hx hy hoff]
      exact if_congr (by omega) rfl rfl
    · intro x y hx hy hx2
      rw [show (p1ColBody w h ch i st).itg =
          ((Nat.fold (p1RowBody w ch i) h (st, 0)).1).itg from rfl]
      exact hi2 x y hx hy (by omega)
  refine ⟨?_, ?_⟩
  · intro x y off hx hy hoff
    have hmain := main.1 x y off hx hy hoff
    rw [show (Nat.fold (p1ColBody w h ch) w ⟨d, fun _ => 0⟩ : AState) =
        adaptiveFirstPass d w h ch from rfl] at hmain
    rw [hmain]
    exact if_congr (by omega) rfl rfl
  · intro x y hx hy
    have hmain := main.2 x y hx hy hx
    rw [show (Nat.fold (p1ColBody w h ch) w ⟨d, fun _ => 0⟩ : AState) =
        adaptiveFirstPass d w h ch from rfl] at hmain
    exact hmain

theorem adaptiveSecondPass_spec (w h ch : Nat) (hch : 3 ≤ ch) (t : ℚ) (s2 : Nat)
    (st1 : AState) :
    ∀ x y off, x < w → y < h → off < ch →
      (adaptiveSecondPass w h ch t s2 st1).dat ((y * w + x) * ch + off) =
        if off < 3 then p2v w h ch t s2 st1 x y
        else st1.dat ((y * w + x) * ch + off) := by
  have main := fold_inv (fun i => p2ColBody w h ch t s2 i) (fun i st =>
      st.itg = st1.itg ∧
      ∀ x y off, x < w → y < h → off < ch →
        st.dat ((y * w + x) * ch + off) =
          if x < i ∧ off < 3 then p2v w h ch t s2 st1 x y
          else st1.dat ((y * w + x) * ch + off))
    w st1 ?base ?step
  case base =>
    exact ⟨rfl, fun x y off _ _ _ => by rw [if_neg (by omega)]⟩
  case step =>
    intro i st hi hP
    obtain ⟨hitg, hdat⟩ := hP
    have inner := fold_inv (fun j => p2Body w h ch t s2 i j) (fun j st2 =>
        st2.itg = st1.itg ∧
        ∀ x y off, x < w → y < h → off < ch →
          st2.dat ((y * w + x) * ch + off) =
            if (x < i ∨ (x = i ∧ y < j)) ∧ off < 3 then p2v w h ch t s2 st1 x y
            else st1.dat ((y * w + x) * ch + off))
      h st ?ibase ?istep
    case ibase =>
      refine ⟨hitg, ?_⟩
      intro x y off hx hy hoff
      rw [hdat x y off hx hy hoff]
      exact if_congr (by omega) rfl rfl
    case istep =>
      intro j st2 hj hQ
      obtain ⟨hitg2, hd2⟩ := hQ
      have e0 := hd2 i j 0 hi hj (by omega)
      rw [if_neg (by omega), Nat.add_zero] at e0
      simp only [p2Body]
      refine ⟨hitg2, ?_⟩
      intro x y off hx hy hoff
      rw [write3_pixel st2.dat w ch hch i j hi _ x y off hx hoff]
      by_cases hcase : x = i ∧ y = j ∧ off < 3
      · rw [if_pos hcase,
          if_pos (show (x < i ∨ (x = i ∧ y < j + 1)) ∧ off < 3 from
            ⟨Or.inr ⟨hcase.1, by omega⟩, hcase.2.2⟩),
          hcase.1, hcase.2.1, e0, hitg2]
        rfl
      · rw [if_neg hcase, hd2 x y off hx hy hoff]
        exact if_congr (by omega) rfl rfl
    obtain ⟨hitg3, hd3⟩ := inner
    refine ⟨hitg3, ?_⟩
    intro x y off hx hy hoff
    show (Nat.fold (fun j => p2Body w h ch t s2 i j) h st).dat ((y * w + x) * ch + off) = _
    rw [hd3 x y off hx hy hoff]
    exact if_congr (by omega) rfl rfl
  intro x y off hx hy hoff
  rw [show adaptiveSecondPass w h ch t s2 st1 =
      Nat.fold (fun i => p2ColBody w h ch t s2 i) w st1 from rfl,
    main.2 x y off hx hy hoff]
  exact if_congr (by omega) rfl rfl

theorem applyAdaptiveThreshold_spec (d : Nat → ℚ) (w h ch len : Nat) (hch : 3 ≤ ch)
    (hw : 0 < w) (hh : 0 < h) (hlen : len = w * h * ch) :
    ∀ x y off, x < w → y < h → off < 3 →
      applyAdaptiveThreshold d len w h ((y * w + x) * ch + off) =
        p2v w h ch 0.15 ((w / 4 + 1) / 2) (adaptiveFirstPass d w h ch) x y := by
  intro x y off hx hy hoff
  have hch2 : len / (w * h) = ch := by
    rw [hlen]
    exact Nat.mul_div_cancel_left ch (Nat.mul_pos hw hh)
  simp only [applyAdaptiveThreshold]
  rw [hch2, adaptiveSecondPass_spec w h ch hch 0.15 ((w / 4 + 1) / 2)
    (adaptiveFirstPass d w h ch) x y off hx hy (by omega), if_pos hoff]

theorem p2v_mem (w h ch : Nat) (t : ℚ) (s2 : Nat) (st1 : AState) (i j : Nat) :
    p2v w h ch t s2 st1 i j = 0 ∨ p2v w h ch t s2 st1 i j = 255 := by
  have hgen : ∀ (c : Prop) (inst : Decidable c),
      (if c then (0 : ℚ) else 255) = 0 ∨ (if c then (0 : ℚ) else 255) = 255 := by
    intro c inst
    by_cases hc : c
    · exact Or.inl (if_pos hc)
    · exact Or.inr (if_neg hc)
  simp only [p2v]
  exact hgen _ _

theorem greySum_uniform (d : Nat → ℚ) (w h ch : Nat) (c : ℚ) (x y : Nat)
    (hx : x < w) (hy : y < h)
    (hu : ∀ a b, a < w → b < h → grey0 d ch (b * w + a) = c) :
    greySum d w ch x y = c * ((x : ℚ) + 1) * ((y : ℚ) + 1) := by
  have h1 : ∑ a ∈ Finset.range (x + 1), ∑ b ∈ Finset.range (y + 1), grey0 d ch (b * w + a) =
      ∑ a ∈ Finset.range (x + 1), ∑ b ∈ Finset.range (y + 1), c := by
    apply Finset.sum_congr rfl
    intro a ha
    apply Finset.sum_congr rfl
    intro b hb
    exact hu a b (by have := Finset.mem_range.mp ha; omega)
      (by have := Finset.mem_range.mp hb; omega)
  show (∑ a ∈ Finset.range (x + 1), ∑ b ∈ Finset.range (y + 1), grey0 d ch (b * w + a)) = _
  rw [h1]
  simp [Finset.sum_const, Finset.card_range, nsmul_eq_mul]
  ring

theorem p2v_uniform (d : Nat → ℚ) (w h ch : Nat) (hch : 3 ≤ ch) (hw : 0 < w) (hh : 0 < h)
    (c : ℚ) (hc : 0 ≤ c) (s2 : Nat)
    (hu : ∀ a b, a < w → b < h → grey0 d ch (b * w + a) = c)
    (i j : Nat) (hi : i < w) (hj : j < h) :
    p2v w h ch 0.15 s2 (adaptiveFirstPass d w h ch) i j = 255 := by
  obtain ⟨hdat, hitg⟩ := adaptiveFirstPass_spec d w h ch hch
  simp only [p2v]
  set x1 := i - s2 with hx1def
  set x2 := if w ≤ i + s2 then w - 1 else i + s2 with hx2def
  set y1 := j - s2 with hy1def
  set y2 := if h ≤ j + s2 then h - 1 else j + s2 with hy2def
  have hx1i : x1 ≤ i := Nat.sub_le _ _
  have hy1j : y1 ≤ j := Nat.sub_le _ _
  have hix2 : i ≤ x2 := by
    rw [hx2def]
    by_cases hcc : w ≤ i + s2
    · rw [if_pos hcc]; omega
    · rw [if_neg hcc]; omega
  have hjy2 : j ≤ y2 := by
    rw [hy2def]
    by_cases hcc : h ≤ j + s2
    · rw [if_pos hcc]; omega
    · rw [if_neg hcc]; omega
  have hx2w : x2 < w := by
    rw [hx2def]
    by_cases hcc : w ≤ i + s2
    · rw [if_pos hcc]; omega
    · rw [if_neg hcc]; omega
  have hy2h : y2 < h := by
    rw [hy2def]
    by_cases hcc : h ≤ j + s2
    · rw [if_pos hcc]; omega
    · rw [if_neg hcc]; omega
  have hx1w : x1 < w := by omega
  have hy1h : y1 < h := by omega
  have g1 : (adaptiveFirstPass d w h ch).itg (y2 * w + x2) =
      c * ((x2 : ℚ) + 1) * ((y2 : ℚ) + 1) := by
    rw [hitg x2 y2 hx2w hy2h, greySum_uniform d w h ch c x2 y2 hx2w hy2h hu]
  have g2 : (adaptiveFirstPass d w h ch).itg (y1 * w + x2) =
      c * ((x2 : ℚ) + 1) * ((y1 : ℚ) + 1) := by
    rw [hitg x2 y1 hx2w hy1h, greySum_uniform d w h ch c x2 y1 hx2w hy1h hu]
  have g3 : (adaptiveFirstPass d w h ch).itg (y2 * w + x1) =
      c * ((x1 : ℚ) + 1) * ((y2 : ℚ) + 1) := by
    rw [hitg x1 y2 hx1w hy2h, greySum_uniform d w h ch c x1 y2 hx1w hy2h hu]
  have g4 : (adaptiveFirstPass d w h ch).itg (y1 * w + x1) =
      c * ((x1 : ℚ) + 1) * ((y1 : ℚ) + 1) := by
    rw [hitg x1 y1 hx1w hy1h, greySum_uniform d w h ch c x1 y1 hx1w hy1h hu]
  have g0 : (adaptiveFirstPass d w h ch).dat ((j * w + i) * ch) = c := by
    have hg := hdat i j 0 hi hj (by omega)
    rw [if_pos (by omega), Nat.add_zero] at hg
    rw [hg, hu i j hi hj]
  rw [g0, g1, g2, g3, g4]
  rw [if_neg]
  intro hlt
  have hcast : (((x2 - x1) * (y2 - y1) : Nat) : ℚ) = ((x2 : ℚ) - x1) * ((y2 : ℚ) - y1) := by
    rw [Nat.cast_mul, Nat.cast_sub (le_trans hx1i hix2), Nat.cast_sub (le_trans hy1j hjy2)]
  have hsum : c * ((x2 : ℚ) + 1) * ((y2 : ℚ) + 1) - c * ((x2 : ℚ) + 1) * ((y1 : ℚ) + 1) -
      c * ((x1 : ℚ) + 1) * ((y2 : ℚ) + 1) + c * ((x1 : ℚ) + 1) * ((y1 : ℚ) + 1) =
      c * (((x2 : ℚ) - x1) * ((y2 : ℚ) - y1)) := by
    ring
  rw [hcast, hsum] at hlt
  have hK : (0 : ℚ) ≤ ((x2 : ℚ) - x1) * ((y2 : ℚ) - y1) := by
    have hxq : (x1 : ℚ) ≤ (x2 : ℚ) := Nat.cast_le.mpr (le_trans hx1i hix2)
    have hyq : (y1 : ℚ) ≤ (y2 : ℚ) := Nat.cast_le.mpr (le_trans hy1j hjy2)
    have := mul_nonneg (sub_nonneg.mpr hxq) (sub_nonneg.mpr hyq)
    exact this
  have hA := mul_nonneg hc hK
  linarith

/-- Claim C1 (code bug): contrary to the claim that every completed run is
emitted with its true length (pre-trim sum `width`, single run `width` on a
uniform image), `getLines` over-counts the first run by one: on a uniformly
black 2×2 one-channel buffer (no padding trimmed) it returns `[3]` instead
of a single run equal to `width = 2`, because `count` starts at `1` and is
incremented again when column 0 is compared with itself. -/
theorem getLines_uniform_black_eval : getLines (fun _ => 0) 4 2 2 = [3] := by
  decide

/-- Claim C2: on a pixel buffer whose pixels all have the same greyscale
intensity `c` (a valid buffer: positive dimensions, at least three
channels, `len = w*h*ch`, byte values are nonnegative), adaptive
thresholding writes `255` into every touched color channel: no pixel of a
perfectly uniform image is classified as a bar. -/
theorem applyAdaptiveThreshold_uniform (d : Nat → ℚ) (w h ch len : Nat) (c : ℚ)
    (hch : 3 ≤ ch) (hw : 0 < w) (hh : 0 < h) (hlen : len = w * h * ch) (hc : 0 ≤ c)
    (hu : ∀ x y, x < w → y < h → grey0 d ch (y * w + x) = c) :
    ∀ x y off, x < w → y < h → off < 3 →
      applyAdaptiveThreshold d len w h ((y * w + x) * ch + off) = 255 := by
  intro x y off hx hy hoff
  rw [applyAdaptiveThreshold_spec d w h ch len hch hw hh hlen x y off hx hy hoff]
  exact p2v_uniform d w h ch hch hw hh c hc ((w / 4 + 1) / 2)
    (fun a b ha hb => hu a b ha hb) x y hx hy

/-- Witness for C2: a uniform 2×2 three-channel buffer of intensity 9
binarizes to 255 at pixel (1,1), channel 0. -/
theorem applyAdaptiveThreshold_uniform_witness :
    (3 ≤ 3 ∧ 0 < 2 ∧ 0 < 2 ∧ 12 = 2 * 2 * 3 ∧ (0 : ℚ) ≤ 9 ∧
      (∀ x y, x < 2 → y < 2 → grey0 (fun _ => (9 : ℚ)) 3 (y * 2 + x) = 9) ∧
      1 < 2 ∧ 0 < 3) ∧
    applyAdaptiveThreshold (fun _ => (9 : ℚ)) 12 2 2 ((1 * 2 + 1) * 3 + 0) = 255 :=
  ⟨⟨le_refl 3, by omega, by omega, by omega, by norm_num,
      fun x y _ _ => by norm_num [grey0], by omega, by omega⟩,
    applyAdaptiveThreshold_uniform (fun _ => (9 : ℚ)) 2 2 3 12 9 (le_refl 3) (by omega)
      (by omega) (by omega) (by norm_num) (fun x y _ _ => by norm_num [grey0])
      1 1 0 (by omega) (by omega) (by omega)⟩

/-- Claim C3: after the first pass of `applyAdaptiveThreshold` on a valid
pixel buffer, the integral image at `y*width + x` equals the sum of the
greyscale values (the mean of the first three channels) over the pixel
rectangle `[0,x] × [0,y]`. -/
theorem adaptiveFirstPass_integral (d : Nat → ℚ) (w h ch : Nat) (hch : 3 ≤ ch)
    (hw : 0 < w) (hh : 0 < h) (x y : Nat) (hx : x < w) (hy : y < h) :
    (adaptiveFirstPass d w h ch).itg (y * w + x) = greySum d w ch x y :=
  (adaptiveFirstPass_spec d w h ch hch).2 x y hx hy

/-- Witness for C3 on a concrete 2×2 three-channel buffer. -/
theorem adaptiveFirstPass_integral_witness :
    (3 ≤ 3 ∧ 0 < 2 ∧ 0 < 2 ∧ 1 < 2) ∧
    (adaptiveFirstPass (fun _ => (6 : ℚ)) 2 2 3).itg (1 * 2 + 1) =
      greySum (fun _ => (6 : ℚ)) 2 3 1 1 :=
  ⟨⟨le_refl 3, by omega, by omega, by omega⟩,
    adaptiveFirstPass_integral (fun _ => (6 : ℚ)) 2 2 3 (le_refl 3) (by omega) (by omega)
      1 1 (by omega) (by omega)⟩

/-- Claim C4 counterexample: the claim says a pixel whose channel mean is
exactly 127 becomes 255 (`≥ 127 → 255`), but the source compares with
strict `v > 127`: the buffer `[127,127,127]` (mean exactly 127) is written
to 0, not 255. -/
theorem applySimpleThreshold_midpoint_counterexample :
    ((127 : ℚ) + 127 + 127) / 3 ≥ 127 ∧
    applySimpleThreshold (fun _ => (127 : ℚ)) 3 1 1 0 = 0 ∧
    applySimpleThreshold (fun _ => (127 : ℚ)) 3 1 1 0 ≠ 255 := by
  refine ⟨by norm_num, ?_, ?_⟩
  · norm_num [applySimpleThreshold, Nat.fold, simpleBody, write3, upd]
  · norm_num [applySimpleThreshold, Nat.fold, simpleBody, write3, upd]

/-- Claim C4 (amended): for every pixel of a valid pixel buffer,
`applySimpleThreshold` writes 255 into the pixel's first three channels
when the mean of those three channels is strictly greater than 127, and 0
otherwise; in particular a pixel whose channel mean is exactly 127 becomes
0. -/
theorem applySimpleThreshold_strict (d : Nat → ℚ) (w h ch len : Nat) (hch : 3 ≤ ch)
    (hw : 0 < w) (hh : 0 < h) (hlen : len = w * h * ch) (k off : Nat)
    (hk : k < w * h) (hoff : off < 3) :
    applySimpleThreshold d len w h (k * ch + off) =
      if (d (k * ch) + d (k * ch + 1) + d (k * ch + 2)) / 3 > 127 then 255 else 0 :=
  applySimpleThreshold_spec d w h ch len hch hw hh hlen k off hk hoff

/-- Witness for the amended C4 on a concrete bright pixel. -/
theorem applySimpleThreshold_strict_witness :
    (3 ≤ 3 ∧ 0 < 1 ∧ 3 = 1 * 1 * 3 ∧ 0 < 1 * 1 ∧ 0 < 3) ∧
    applySimpleThreshold (fun _ => (200 : ℚ)) 3 1 1 (0 * 3 + 0) =
      (if ((200 : ℚ) + 200 + 200) / 3 > 127 then 255 else 0) :=
  ⟨⟨le_refl 3, by omega, by omega, by omega, by omega⟩,
    applySimpleThreshold_strict (fun _ => (200 : ℚ)) 1 1 3 3 (le_refl 3) (by omega)
      (by omega) rfl 0 0 (by omega) (by omega)⟩

/-- Claim C5: on a valid pixel buffer, both binarizers leave only the
values 0 or 255 in every color channel they touch (the first three
channels of each pixel). -/
theorem binarizer_output_binary (d : Nat → ℚ) (w h ch len : Nat) (hch : 3 ≤ ch)
    (hw : 0 < w) (hh : 0 < h) (hlen : len = w * h * ch) :
    (∀ x y off, x < w → y < h → off < 3 →
      applyAdaptiveThreshold d len w h ((y * w + x) * ch + off) = 0 ∨
      applyAdaptiveThreshold d len w h ((y * w + x) * ch + off) = 255) ∧
    (∀ k off, k < w * h → off < 3 →
      applySimpleThreshold d len w h (k * ch + off) = 0 ∨
      applySimpleThreshold d len w h (k * ch + off) = 255) := by
  constructor
  · intro x y off hx hy hoff
    rw [applyAdaptiveThreshold_spec d w h ch len hch hw hh hlen x y off hx hy hoff]
    exact p2v_mem w h ch 0.15 ((w / 4 + 1) / 2) (adaptiveFirstPass d w h ch) x y
  · intro k off hk hoff
    rw [applySimpleThreshold_spec d w h ch len hch hw hh hlen k off hk hoff]
    simp only [simpleValue]
    by_cases hc : (d (k * ch) + d (k * ch + 1) + d (k * ch + 2)) / 3 > 127
    · exact Or.inr (if_pos hc)
    · exact Or.inl (if_neg hc)

/-- Witness for C5 on a concrete 1×1 three-channel buffer. -/
theorem binarizer_output_binary_witness :
    (3 ≤ 3 ∧ 0 < 1 ∧ 3 = 1 * 1 * 3 ∧ 0 < 1 * 1 ∧ 0 < 3) ∧
    (applySimpleThreshold (fun _ => (127 : ℚ)) 3 1 1 (0 * 3 + 0) = 0 ∨
      applySimpleThreshold (fun _ => (127 : ℚ)) 3 1 1 (0 * 3 + 0) = 255) :=
  ⟨⟨le_refl 3, by omega, by omega, by omega, by omega⟩,
    (binarizer_output_binary (fun _ => (127 : ℚ)) 1 1 3 3 (le_refl 3) (by omega)
      (by omega) rfl).2 0 0 (by omega) (by omega)⟩

/-- Claim C6 (code bug): the claim says the binarizers and the line
extractor raise `InvalidDimensions` on `width ≤ 0`, `height ≤ 0` or a data
length that is not a multiple of `width*height`; the source performs no
validation whatsoever: `getLines` with `width = 0` silently returns the
empty run-length list instead of raising. -/
theorem getLines_zero_width_eval : getLines (fun _ => 255) 3 0 1 = [] := by
  decide

/-- Claim C7: the result of `combineAllPossible` is determined solely by
the candidates of maximal length: its length equals the longest
candidate's length (`maxLenOf`), strictly shorter candidates never
contribute (filtering the collection to its maximal-length members leaves
the result unchanged), merging an empty collection yields the empty
string, and merging "12" with "123" yields "123". -/
theorem combineAllPossible_maximal :
    (∀ rs : List String, (combineAllPossible rs).length = maxLenOf rs ∧
      combineAllPossible rs =
        combineAllPossible (rs.filter (fun r => r.length == maxLenOf rs))) ∧
    combineAllPossible [] = "" ∧
    combineAllPossible ["12", "123"] = "123" :=
  ⟨fun rs => ⟨combine_length rs, combine_filter rs⟩, by decide, by decide⟩

/-- Claim C8: for equal-length candidates, each position of the merged
result holds the first candidate's definite (non-`?`) character when it
has one, a `?` never overwrites a definite character, and a later
candidate fills a position left `?` by earlier ones — i.e. each position
is the first non-`?` character among the candidates (`firstNonWild`);
merging "1?3" with "123" yields "123", and merging a candidate with
itself returns it unchanged. -/
theorem combineAllPossible_positions :
    (∀ (rs : List String) (L : Nat), (∀ r ∈ rs, r.length = L) →
      ∀ j, j < L → (combineAllPossible rs).data.getD j '?' = firstNonWild rs j) ∧
    combineAllPossible ["1?3", "123"] = "123" ∧
    (∀ s : String, combineAllPossible [s, s] = s) := by
  refine ⟨fun rs L h j hj => combine_eqlen_getD rs L h j hj, by decide, ?_⟩
  intro s
  have hall : ∀ r ∈ [s, s], r.length = s.length := by
    intro r hr
    rcases List.mem_cons.mp hr with rfl | hr2
    · rfl
    · rcases List.mem_cons.mp hr2 with rfl | h3
      · rfl
      · cases h3
  have hlen := combine_eqlen_length [s, s] s.length (by simp) hall
  have hgd := combine_eqlen_getD [s, s] s.length hall
  apply string_eq_of_data
  apply list_eq_of_getD
  · show (combineAllPossible [s, s]).data.length = s.data.length
    rw [← string_length_data, ← string_length_data, hlen]
  · intro j hj
    have hj2 : j < s.length := by
      have hdl : (combineAllPossible [s, s]).data.length = s.length := by
        rw [← string_length_data, hlen]
      omega
    rw [hgd j hj2]
    simp only [firstNonWild]
    by_cases hq : s.data.getD j '?' = '?'
    · rw [if_pos hq, if_pos hq, hq]
    · rw [if_neg hq]

/-- Claim C9 counterexample: `combineAllPossible` does not leave its input
collection as the caller passed it: `["12", "123"]` is reordered (sorted
in place by descending length) to `["123", "12"]`. -/
theorem combineAllPossible_mutates_counterexample :
    (combineAllPossibleRun ["12", "123"]).2 ≠ ["12", "123"] := by
  decide

/-- Claim C9 (amended): `combineAllPossible` computes its return value
without other effects except that it sorts the caller's collection in
place: after the call the collection holds exactly the original candidate
strings, stably reordered into descending length (so the original order
is preserved only when already so sorted). -/
theorem combineAllPossible_sorts_in_place (rs : List String) :
    (combineAllPossibleRun rs).2 = sortByLenDesc rs ∧
    List.Perm ((combineAllPossibleRun rs).2) rs ∧
    SortedDesc ((combineAllPossibleRun rs).2) :=
  ⟨rfl, sortByLenDesc_perm rs, sortByLenDesc_sorted rs⟩

/-- Claim C10: `isUrl(s)` returns exactly the result of the regular
expression test alone, for every string `s` and every regexp semantics:
the left disjunct `!s[0] === '#'` compares a boolean with a string under
strict equality and is therefore always `false`. -/
theorem isUrl_eq_regexp (regexpTest : String → Bool) (s : String) :
    isUrl regexpTest s = regexpTest s ∧
    jsStrictEq (JSVal.bool (!jsTruthy (jsCharAt s 0))) (JSVal.str "#") = false :=
  ⟨by simp [isUrl, jsStrictEq_bool_str], jsStrictEq_bool_str _ _⟩

end Barcode
